import Mathlib

/-!
Verification of the shore orchestration core: pipeline graph, calculation
driver, remote connection, and input-specification fork.  The repository
ships the orchestrator's notebooks; the orchestration data model and
operations below are modelled from the specification's contracts and are
stated and proved over that model.
-/

namespace Shore

/-- Modelled from the spec: the per-stage execution status,
`status ∈ {Pending, Submitted, Running, Done, Failed}` (the shore library's
stage marker; the library code itself is not in the repository). -/
inductive Status where
  | Pending
  | Submitted
  | Running
  | Done
  | Failed
deriving DecidableEq

/-- Position of a status along the advance chain
Pending → Submitted → Running → {Done, Failed}: a status change is an advance
exactly when this rank strictly increases. -/
def Status.rank : Status → Nat
  | Status.Pending => 0
  | Status.Submitted => 1
  | Status.Running => 2
  | Status.Done => 3
  | Status.Failed => 3

/-- Modelled from the spec: a Stage is `{name, dependency set, status}` (the
ordinal position is the stage's index in the graph's ordered list). -/
structure Stage where
  name : String
  deps : List String
  status : Status
deriving DecidableEq

/-- Modelled from the spec: a PipelineGraph owns an ordered mapping from stage
name to Stage (kept as the ordered list of stages; the shore `Workflow` class
is not in the repository). -/
structure PipelineGraph where
  stages : List Stage
deriving DecidableEq

/-- Look a stage up by name (first stage carrying the name). -/
def findStage : List Stage → String → Option Stage
  | [], _ => none
  | st :: l, n => if st.name = n then some st else findStage l n

/-- The ordered list of stage names of the graph. -/
def PipelineGraph.names (g : PipelineGraph) : List String :=
  g.stages.map (fun st => st.name)

/-- The stage registered under a name, when present. -/
def PipelineGraph.stage? (g : PipelineGraph) (n : String) : Option Stage :=
  findStage g.stages n

/-- The status registered under a stage name, when present. -/
def PipelineGraph.statusOf (g : PipelineGraph) (n : String) : Option Status :=
  (g.stage? n).map (fun st => st.status)

/-- The graph with no stages. -/
def PipelineGraph.empty : PipelineGraph := ⟨[]⟩

/-- Modelled from the spec: `add_stage(name, dependencies)` appends a new
Pending stage; it fails on a duplicate name (DuplicateStageError) and when a
dependency does not name an already-present stage — the only way an add could
create a cycle (CyclicDependencyError), so every dependency points strictly
earlier in the order and the dependency relation stays acyclic. -/
def PipelineGraph.add_stage (g : PipelineGraph) (n : String) (ds : List String) :
    Option PipelineGraph :=
  if n ∈ g.names then none
  else if ∀ d ∈ ds, d ∈ g.names then some ⟨g.stages ++ [⟨n, ds, Status.Pending⟩]⟩
  else none

/-- One closure step of the dependents relation: add the name of every stage
one of whose dependencies is already in the set. -/
def PipelineGraph.dependentsStep (g : PipelineGraph) (s : List String) : List String :=
  s ++ (g.stages.filter (fun st => decide (∃ d ∈ st.deps, d ∈ s))).map (fun st => st.name)

/-- Iterate the dependents closure step a given number of times. -/
def depClosure (g : PipelineGraph) : Nat → List String → List String
  | 0, s => s
  | fuel + 1, s => depClosure g fuel (g.dependentsStep s)

/-- Modelled from the spec: the target stage together with all of its
transitive dependents (every stage that depends on it directly or through a
chain of dependencies).  Iterating one step per stage of the graph reaches the
closure, because a dependency chain never repeats a stage. -/
def PipelineGraph.transitiveDependents (g : PipelineGraph) (n : String) : List String :=
  depClosure g g.stages.length [n]

/-- Modelled from the spec: `mark(name, status)` updates one stage; without
`force` it enforces the monotonic status-advance invariant, rejecting any
update that is not a strict advance along the chain (regressions included);
with `force` (used for `overwrite` re-runs) it cascades a reset to Pending
across the target stage and all of its transitive dependents. -/
def PipelineGraph.mark (g : PipelineGraph) (n : String) (s : Status) (force : Bool) :
    Option PipelineGraph :=
  (g.stage? n).bind (fun st =>
    if force then
      some ⟨g.stages.map (fun t =>
        if t.name ∈ g.transitiveDependents n then { t with status := Status.Pending } else t)⟩
    else if st.status.rank < s.rank then
      some ⟨g.stages.map (fun t => if t.name = n then { t with status := s } else t)⟩
    else none)

/-- Modelled from the spec: `ready_stages()` returns the names of the stages
whose dependencies are all Done and whose own status is Pending — the
scheduling frontier the Calculation driver consumes. -/
def PipelineGraph.ready_stages (g : PipelineGraph) : List String :=
  (g.stages.filter (fun st =>
    decide (st.status = Status.Pending ∧ ∀ d ∈ st.deps, g.statusOf d = some Status.Done))).map
    (fun st => st.name)

/-- A pipeline-graph operation: an `add_stage` or a `mark` call. -/
inductive Op where
  | add (n : String) (ds : List String)
  | mark (n : String) (s : Status) (force : Bool)

/-- Apply one operation; a rejected operation leaves the graph unchanged. -/
def applyOp (g : PipelineGraph) : Op → PipelineGraph
  | Op.add n ds => (g.add_stage n ds).getD g
  | Op.mark n s f => (g.mark n s f).getD g

/-- Apply a sequence of operations in order. -/
def runOps (g : PipelineGraph) (ops : List Op) : PipelineGraph :=
  ops.foldl applyOp g

/-- An operation that does not use the force flag. -/
def Op.unforced : Op → Prop
  | Op.add _ _ => True
  | Op.mark _ _ f => f = false

theorem findStage_name {l : List Stage} {n : String} {st : Stage}
    (h : findStage l n = some st) : st.name = n := by
  induction l with
  | nil => simp [findStage] at h
  | cons a l ih =>
    rw [findStage] at h
    by_cases ha : a.name = n
    · rw [if_pos ha] at h
      cases h
      exact ha
    · rw [if_neg ha] at h
      exact ih h

theorem findStage_append {l₁ l₂ : List Stage} {n : String} {st : Stage}
    (h : findStage l₁ n = some st) : findStage (l₁ ++ l₂) n = some st := by
  induction l₁ with
  | nil => simp [findStage] at h
  | cons a l ih =>
    rw [findStage] at h
    rw [List.cons_append, findStage]
    by_cases ha : a.name = n
    · rw [if_pos ha] at h
      rw [if_pos ha]
      exact h
    · rw [if_neg ha] at h
      rw [if_neg ha]
      exact ih h

theorem findStage_map_of_name {l : List Stage} {f : Stage → Stage}
    (hf : ∀ st, (f st).name = st.name) (n : String) :
    findStage (l.map f) n = (findStage l n).map f := by
  induction l with
  | nil => rfl
  | cons a l ih =>
    rw [List.map_cons, findStage, findStage, hf a]
    by_cases ha : a.name = n
    · rw [if_pos ha, if_pos ha]
      rfl
    · rw [if_neg ha, if_neg ha, ih]

theorem mark_unforced_eq {g g' : PipelineGraph} {n : String} {s : Status}
    (h : g.mark n s false = some g') :
    (∃ st, g.stage? n = some st ∧ st.status.rank < s.rank) ∧
      g' = ⟨g.stages.map (fun t => if t.name = n then { t with status := s } else t)⟩ := by
  unfold PipelineGraph.mark at h
  cases hst : g.stage? n with
  | none =>
    rw [hst] at h
    simp at h
  | some st =>
    rw [hst, Option.some_bind] at h
    by_cases hr : st.status.rank < s.rank
    · rw [if_neg (by simp), if_pos hr] at h
      cases h
      exact ⟨⟨st, rfl, hr⟩, rfl⟩
    · rw [if_neg (by simp), if_neg hr] at h
      cases h

theorem statusOf_mark_unforced {g g' : PipelineGraph} {n : String} {s : Status}
    (h : g.mark n s false = some g') (m : String) :
    g'.statusOf m = if m = n then some s else g.statusOf m := by
  obtain ⟨⟨st, hst, hr⟩, rfl⟩ := mark_unforced_eq h
  unfold PipelineGraph.statusOf PipelineGraph.stage?
  rw [findStage_map_of_name (fun t => by split <;> rfl)]
  cases hm : findStage g.stages m with
  | none =>
    by_cases hmn : m = n
    · subst hmn
      have hst' : findStage g.stages m = some st := hst
      rw [hm] at hst'
      cases hst'
    · simp [hmn]
  | some t =>
    have hname := findStage_name hm
    by_cases hmn : m = n
    · subst hmn
      simp [hname]
    · simp [hname, hmn]

theorem add_stage_eq {g g' : PipelineGraph} {n : String} {ds : List String}
    (h : g.add_stage n ds = some g') :
    n ∉ g.names ∧ (∀ d ∈ ds, d ∈ g.names) ∧
      g' = ⟨g.stages ++ [⟨n, ds, Status.Pending⟩]⟩ := by
  unfold PipelineGraph.add_stage at h
  by_cases h1 : n ∈ g.names
  · rw [if_pos h1] at h
    cases h
  · rw [if_neg h1] at h
    by_cases h2 : ∀ d ∈ ds, d ∈ g.names
    · rw [if_pos h2] at h
      cases h
      exact ⟨h1, h2, rfl⟩
    · rw [if_neg h2] at h
      cases h

theorem statusOf_add_stage {g g' : PipelineGraph} {n : String} {ds : List String}
    (h : g.add_stage n ds = some g') {m : String} {s : Status}
    (hm : g.statusOf m = some s) : g'.statusOf m = some s := by
  obtain ⟨-, -, rfl⟩ := add_stage_eq h
  unfold PipelineGraph.statusOf PipelineGraph.stage? at hm ⊢
  cases hfs : findStage g.stages m with
  | none =>
    rw [hfs] at hm
    cases hm
  | some t =>
    rw [hfs] at hm
    rw [findStage_append hfs]
    exact hm

theorem statusOf_applyOp_mono {g : PipelineGraph} {op : Op} (hop : op.unforced)
    {n : String} {s₀ : Status} (h : g.statusOf n = some s₀) :
    ∃ s, (applyOp g op).statusOf n = some s ∧ s₀.rank ≤ s.rank := by
  cases op with
  | add m ds =>
    simp only [applyOp]
    cases hadd : g.add_stage m ds with
    | none => exact ⟨s₀, by rw [Option.getD_none]; exact h, le_refl _⟩
    | some g' =>
      exact ⟨s₀, by rw [Option.getD_some]; exact statusOf_add_stage hadd h, le_refl _⟩
  | mark m u f =>
    have hf : f = false := hop
    subst hf
    simp only [applyOp]
    cases hmk : g.mark m u false with
    | none => exact ⟨s₀, by rw [Option.getD_none]; exact h, le_refl _⟩
    | some g' =>
      rw [Option.getD_some]
      by_cases hnm : n = m
      · subst hnm
        obtain ⟨⟨st, hst, hr⟩, -⟩ := mark_unforced_eq hmk
        have hs₀ : st.status = s₀ := by
          unfold PipelineGraph.statusOf at h
          rw [hst] at h
          cases h
          rfl
        refine ⟨u, ?_, ?_⟩
        · rw [statusOf_mark_unforced hmk, if_pos rfl]
        · rw [← hs₀]
          exact le_of_lt hr
      · refine ⟨s₀, ?_, le_refl _⟩
        rw [statusOf_mark_unforced hmk, if_neg hnm]
        exact h

theorem statusOf_runOps_mono {ops : List Op} (hops : ∀ op ∈ ops, op.unforced) :
    ∀ {g : PipelineGraph} {n : String} {s₀ : Status}, g.statusOf n = some s₀ →
      ∃ s, (runOps g ops).statusOf n = some s ∧ s₀.rank ≤ s.rank := by
  induction ops with
  | nil =>
    intro g n s₀ h
    exact ⟨s₀, h, le_refl _⟩
  | cons op ops ih =>
    intro g n s₀ h
    obtain ⟨s₁, h₁, hr₁⟩ := statusOf_applyOp_mono (hops op (by simp)) h
    obtain ⟨s₂, h₂, hr₂⟩ := ih (fun o ho => hops o (by simp [ho])) h₁
    refine ⟨s₂, ?_, le_trans hr₁ hr₂⟩
    rw [runOps, List.foldl_cons]
    exact h₂

theorem mark_rejects_nonadvance {g : PipelineGraph} {n : String} {s s₀ : Status}
    (h : g.statusOf n = some s₀) (hr : ¬ s₀.rank < s.rank) :
    g.mark n s false = none := by
  unfold PipelineGraph.statusOf at h
  cases hst : g.stage? n with
  | none =>
    rw [hst] at h
    cases h
  | some st =>
    rw [hst] at h
    simp only [Option.map_some'] at h
    cases h
    unfold PipelineGraph.mark
    rw [hst, Option.some_bind, if_neg (by simp), if_neg hr]

theorem mark_force_resets {g g' : PipelineGraph} {n : String} {s : Status}
    (h : g.mark n s true = some g') :
    ∀ st' ∈ g'.stages, st'.name ∈ g.transitiveDependents n →
      st'.status = Status.Pending := by
  unfold PipelineGraph.mark at h
  cases hst : g.stage? n with
  | none =>
    rw [hst] at h
    cases h
  | some st =>
    rw [hst, Option.some_bind, if_pos rfl] at h
    cases h
    intro st' hmem hdep
    rw [List.mem_map] at hmem
    obtain ⟨t, ht, rfl⟩ := hmem
    by_cases htr : t.name ∈ g.transitiveDependents n
    · simp [htr]
    · simp only [if_neg htr] at hdep ⊢
      exact absurd hdep htr

/-- C1: for every PipelineGraph and every sequence of add_stage/mark
operations without the force flag, a stage's status only ever advances in rank
along Pending → Submitted → Running → {Done, Failed} and never regresses;
mark without force rejects any update that is not a strict advance (in
particular Done → Pending); and mark with force resets the target stage and
all of its transitive dependents back to Pending. -/
theorem C1_status_advance_invariant :
    (∀ (g : PipelineGraph) (ops : List Op), (∀ op ∈ ops, op.unforced) →
        ∀ (n : String) (s₀ : Status), g.statusOf n = some s₀ →
          ∃ s, (runOps g ops).statusOf n = some s ∧ s₀.rank ≤ s.rank)
    ∧ (∀ (g : PipelineGraph) (n : String) (s s₀ : Status),
        g.statusOf n = some s₀ → ¬ s₀.rank < s.rank → g.mark n s false = none)
    ∧ (∀ (g g' : PipelineGraph) (n : String) (s : Status), g.mark n s true = some g' →
        ∀ st' ∈ g'.stages, st'.name ∈ g.transitiveDependents n →
          st'.status = Status.Pending) := by
  refine ⟨?_, ?_, ?_⟩
  · intro g ops hops n s₀ h
    exact statusOf_runOps_mono hops h
  · intro g n s s₀ h hr
    exact mark_rejects_nonadvance h hr
  · intro g g' n s h
    exact mark_force_resets h

/-- Concrete instantiation of C1: a one-stage graph with stage A Done rejects
the non-forced regression mark A Pending. -/
theorem C1_status_advance_invariant_witness :
    (⟨[⟨"A", [], Status.Done⟩]⟩ : PipelineGraph).mark "A" Status.Pending false = none :=
  C1_status_advance_invariant.2.1 ⟨[⟨"A", [], Status.Done⟩]⟩ "A" Status.Pending Status.Done
    (by decide) (by decide)

theorem names_map_of_name {l : List Stage} {f : Stage → Stage}
    (hf : ∀ st, (f st).name = st.name) :
    (l.map f).map (fun st => st.name) = l.map (fun st => st.name) := by
  induction l with
  | nil => rfl
  | cons a l ih => simp [hf a, ih]

theorem names_mark {g g' : PipelineGraph} {n : String} {s : Status} {f : Bool}
    (h : g.mark n s f = some g') : g'.names = g.names := by
  unfold PipelineGraph.mark at h
  cases hst : g.stage? n with
  | none =>
    rw [hst] at h
    cases h
  | some st =>
    rw [hst, Option.some_bind] at h
    by_cases hf : f = true
    · rw [if_pos hf] at h
      cases h
      exact names_map_of_name (fun t => by split <;> rfl)
    · rw [if_neg hf] at h
      by_cases hr : st.status.rank < s.rank
      · rw [if_pos hr] at h
        cases h
        exact names_map_of_name (fun t => by split <;> rfl)
      · rw [if_neg hr] at h
        cases h

theorem names_nodup_applyOp {g : PipelineGraph} (hg : g.names.Nodup) (op : Op) :
    (applyOp g op).names.Nodup := by
  cases op with
  | add n ds =>
    simp only [applyOp]
    cases hadd : g.add_stage n ds with
    | none =>
      rw [Option.getD_none]
      exact hg
    | some g' =>
      rw [Option.getD_some]
      obtain ⟨hn, -, rfl⟩ := add_stage_eq hadd
      unfold PipelineGraph.names at hg hn ⊢
      rw [List.map_append]
      simp only [List.nodup_append, List.map_cons, List.map_nil]
      refine ⟨hg, List.nodup_singleton _, ?_⟩
      intro a ha hb
      simp at hb
      subst hb
      exact hn ha
  | mark n s f =>
    simp only [applyOp]
    cases hmk : g.mark n s f with
    | none =>
      rw [Option.getD_none]
      exact hg
    | some g' =>
      rw [Option.getD_some, names_mark hmk]
      exact hg

theorem names_nodup_runOps (ops : List Op) :
    ∀ {g : PipelineGraph}, g.names.Nodup → (runOps g ops).names.Nodup := by
  induction ops with
  | nil =>
    intro g hg
    exact hg
  | cons op ops ih =>
    intro g hg
    rw [runOps, List.foldl_cons]
    exact ih (names_nodup_applyOp hg op)

theorem stage_eq_of_nodup {g : PipelineGraph} (hg : g.names.Nodup) {st st' : Stage}
    (h1 : st ∈ g.stages) (h2 : st' ∈ g.stages) (hn : st.name = st'.name) : st = st' :=
  List.inj_on_of_nodup_map hg h1 h2 hn

theorem ready_stages_mem {g : PipelineGraph} {n : String} :
    n ∈ g.ready_stages ↔ ∃ st ∈ g.stages, st.name = n ∧ st.status = Status.Pending ∧
      ∀ d ∈ st.deps, g.statusOf d = some Status.Done := by
  unfold PipelineGraph.ready_stages
  simp only [List.mem_map, List.mem_filter, decide_eq_true_eq]
  constructor
  · rintro ⟨st, ⟨hmem, hp, hd⟩, rfl⟩
    exact ⟨st, hmem, rfl, hp, hd⟩
  · rintro ⟨st, hmem, rfl, hp, hd⟩
    exact ⟨st, ⟨hmem, hp, hd⟩, rfl⟩

/-- C2: for every PipelineGraph (in particular every graph built by a valid
sequence of add_stage/mark operations, whose stage names stay duplicate-free),
ready_stages() returns exactly the names of the stages whose own status is
Pending and all of whose dependencies have status Done, and it never returns a
stage one of whose dependencies is not Done. -/
theorem C2_ready_stages_correct :
    (∀ ops : List Op, (runOps PipelineGraph.empty ops).names.Nodup)
    ∧ (∀ (g : PipelineGraph) (n : String),
        n ∈ g.ready_stages ↔ ∃ st ∈ g.stages, st.name = n ∧ st.status = Status.Pending ∧
          ∀ d ∈ st.deps, g.statusOf d = some Status.Done)
    ∧ (∀ g : PipelineGraph, g.names.Nodup → ∀ n ∈ g.ready_stages, ∀ st ∈ g.stages,
        st.name = n → st.status = Status.Pending ∧
          ∀ d ∈ st.deps, g.statusOf d = some Status.Done) := by
  refine ⟨?_, ?_, ?_⟩
  · intro ops
    exact names_nodup_runOps ops List.nodup_nil
  · intro g n
    exact ready_stages_mem
  · intro g hg n hn st hst hname
    obtain ⟨st₀, hmem₀, hname₀, hp₀, hd₀⟩ := ready_stages_mem.mp hn
    have : st = st₀ := stage_eq_of_nodup hg hst hmem₀ (by rw [hname, hname₀])
    subst this
    exact ⟨hp₀, hd₀⟩

/-- Concrete instantiation of C2: in a graph with A Done and B Pending
depending on A, stage B is in the ready frontier. -/
theorem C2_ready_stages_correct_witness :
    "B" ∈ (⟨[⟨"A", [], Status.Done⟩, ⟨"B", ["A"], Status.Pending⟩]⟩ :
      PipelineGraph).ready_stages :=
  (C2_ready_stages_correct.2.1
      ⟨[⟨"A", [], Status.Done⟩, ⟨"B", ["A"], Status.Pending⟩]⟩ "B").mpr
    ⟨⟨"B", ["A"], Status.Pending⟩, by decide, rfl, rfl, by decide⟩

/-- Modelled from the spec: the result record of `execute(command)`,
`{exit_code, stdout, stderr}`. -/
structure ExecResult where
  exit_code : Int
  stdout : String
  stderr : String
deriving DecidableEq

/-- Modelled from the spec: the error a remote-facing call surfaces when its
caller-supplied deadline is exceeded. -/
inductive RemoteError where
  | CommandTimeoutError
deriving DecidableEq

/-- Modelled from the spec: a live authenticated session handle to the remote
host (the shore `RemoteServerManager` class is not in the repository). -/
structure Connection where
  sessionOpen : Bool
deriving DecidableEq

/-- Modelled from the spec: `execute(command)` blocks with a caller-supplied
timeout; `dur` abstracts how long the remote call takes; when it exceeds the
deadline the call fails with CommandTimeoutError without corrupting connection
state, so the connection remains reusable. -/
def Connection.execute (c : Connection) (command : String) (dur deadline : Nat) :
    Except RemoteError ExecResult × Connection :=
  if deadline < dur then (Except.error RemoteError.CommandTimeoutError, c)
  else (Except.ok ⟨0, command, ""⟩, c)

/-- Modelled from the spec: the remote behaviour a `run` call is exposed to —
how long each stage's submission command takes, and the caller-supplied
deadline bounding every remote-facing call. -/
structure RemoteEnv where
  duration : String → Nat
  deadline : Nat

/-- Modelled from the spec: a Calculation binds one input specification to a
pipeline graph and a connection, and remembers which artifact files have
already been retrieved by sync (the shore `Calculation` class is not in the
repository). -/
structure Calculation where
  graph : PipelineGraph
  retrievedFiles : List String
deriving DecidableEq

/-- Submit one stage: issue the remote command through the Connection; on
successful issuance mark the stage Submitted; a timed-out submission leaves
the stage's status untouched (still Pending). -/
def submitStage (env : RemoteEnv) (acc : Calculation × Connection × List String)
    (n : String) : Calculation × Connection × List String :=
  match Connection.execute acc.2.1 n (env.duration n) env.deadline with
  | (Except.ok _, conn') =>
    (⟨(acc.1.graph.mark n Status.Submitted false).getD acc.1.graph, acc.1.retrievedFiles⟩,
      conn', acc.2.2 ++ [n])
  | (Except.error _, conn') => (acc.1, conn', acc.2.2)

/-- Modelled from the spec: on an overwrite re-run, first force-reset any
previously Done stage (cascading to its dependents) so it re-executes. -/
def Calculation.resetDone (c : Calculation) : Calculation :=
  ⟨((c.graph.stages.filter (fun st => decide (st.status = Status.Done))).map
      (fun st => st.name)).foldl
    (fun g n => (g.mark n Status.Pending true).getD g) c.graph, c.retrievedFiles⟩

/-- Modelled from the spec: `run(overwrite)` — for each stage of the ready
frontier, in order, issue the corresponding remote command through the
Connection and on successful issuance mark the stage Submitted; if overwrite
is set, first force-reset previously Done stages.  Returns the updated
calculation, the connection, and the list of stages whose command was
issued. -/
def Calculation.run (env : RemoteEnv) (c : Calculation) (conn : Connection)
    (overwrite : Bool) : Calculation × Connection × List String :=
  let c0 := if overwrite then c.resetDone else c
  (c0.graph.ready_stages).foldl (submitStage env) (c0, conn, [])

theorem mark_submit_of_pending {g : PipelineGraph} {n : String}
    (h : g.statusOf n = some Status.Pending) :
    g.mark n Status.Submitted false =
      some ⟨g.stages.map (fun t =>
        if t.name = n then { t with status := Status.Submitted } else t)⟩ := by
  unfold PipelineGraph.statusOf at h
  cases hst : g.stage? n with
  | none =>
    rw [hst] at h
    cases h
  | some st =>
    rw [hst] at h
    simp only [Option.map_some'] at h
    injection h with h
    unfold PipelineGraph.mark
    rw [hst, Option.some_bind, if_neg (by simp), if_pos (by rw [h]; decide)]

theorem findStage_mem {l : List Stage} {n : String} {st : Stage}
    (h : findStage l n = some st) : st ∈ l := by
  induction l with
  | nil => simp [findStage] at h
  | cons a l ih =>
    rw [findStage] at h
    by_cases ha : a.name = n
    · rw [if_pos ha] at h
      cases h
      exact List.mem_cons_self _ _
    · rw [if_neg ha] at h
      exact List.mem_cons_of_mem _ (ih h)

theorem findStage_exists {l : List Stage} {st : Stage} (h : st ∈ l) :
    ∃ t, findStage l st.name = some t := by
  induction l with
  | nil => simp at h
  | cons a l ih =>
    rw [findStage]
    by_cases ha : a.name = st.name
    · rw [if_pos ha]
      exact ⟨a, rfl⟩
    · rw [if_neg ha]
      rcases List.mem_cons.mp h with h | h
      · subst h
        exact absurd rfl ha
      · exact ih h

theorem stage?_of_mem_nodup {g : PipelineGraph} (hg : g.names.Nodup) {st : Stage}
    (h : st ∈ g.stages) : g.stage? st.name = some st := by
  obtain ⟨t, ht⟩ := findStage_exists h
  have hmem : t ∈ g.stages := findStage_mem ht
  have hname : t.name = st.name := findStage_name ht
  have : t = st := stage_eq_of_nodup hg hmem h hname
  subst this
  exact ht

theorem ready_stages_nodup {g : PipelineGraph} (hg : g.names.Nodup) :
    g.ready_stages.Nodup := by
  unfold PipelineGraph.ready_stages
  exact List.Nodup.sublist (List.Sublist.map _ (List.filter_sublist _)) hg

theorem ready_stages_pending {g : PipelineGraph} (hg : g.names.Nodup) {n : String}
    (h : n ∈ g.ready_stages) : g.statusOf n = some Status.Pending := by
  obtain ⟨st, hmem, hname, hp, -⟩ := ready_stages_mem.mp h
  unfold PipelineGraph.statusOf
  rw [← hname, stage?_of_mem_nodup hg hmem, Option.map_some', hp]

/-- How one submission pass over the frontier list updates one stage: a stage
of the list whose command is issued within the deadline becomes Submitted. -/
def submitUpd (env : RemoteEnv) (L : List String) (st : Stage) : Stage :=
  if st.name ∈ L ∧ env.duration st.name ≤ env.deadline then
    { st with status := Status.Submitted }
  else st

theorem submit_foldl_eq (env : RemoteEnv) :
    ∀ (L : List String) (c : Calculation) (conn : Connection) (cmds : List String),
      (∀ m ∈ L, c.graph.statusOf m = some Status.Pending) → L.Nodup →
      L.foldl (submitStage env) (c, conn, cmds) =
        (⟨⟨c.graph.stages.map (submitUpd env L)⟩, c.retrievedFiles⟩, conn,
          cmds ++ L.filter (fun n => decide (env.duration n ≤ env.deadline))) := by
  intro L
  induction L with
  | nil =>
    intro c conn cmds hAll hnod
    have hfun : submitUpd env [] = fun st => st := by
      funext st
      simp [submitUpd]
    rw [List.foldl_nil, List.filter_nil, List.append_nil, hfun, List.map_id']
  | cons n L ih =>
    intro c conn cmds hAll hnod
    have hn : c.graph.statusOf n = some Status.Pending := hAll n (List.mem_cons_self _ _)
    have hnod' := List.nodup_cons.mp hnod
    rw [List.foldl_cons]
    by_cases hok : env.duration n ≤ env.deadline
    · have hexec : Connection.execute conn n (env.duration n) env.deadline =
          (Except.ok ⟨0, n, ""⟩, conn) := by
        unfold Connection.execute
        rw [if_neg (by omega)]
      have hmk := mark_submit_of_pending hn
      have hsub : submitStage env (c, conn, cmds) n =
          (⟨⟨c.graph.stages.map (fun t =>
              if t.name = n then { t with status := Status.Submitted } else t)⟩,
            c.retrievedFiles⟩, conn, cmds ++ [n]) := by
        simp only [submitStage, hexec]
        rw [hmk, Option.getD_some]
      rw [hsub]
      have hAll' : ∀ m ∈ L,
          (⟨⟨c.graph.stages.map (fun t =>
              if t.name = n then { t with status := Status.Submitted } else t)⟩,
            c.retrievedFiles⟩ : Calculation).graph.statusOf m = some Status.Pending := by
        intro m hm
        have hmn : m ≠ n := by
          intro h
          subst h
          exact hnod'.1 hm
        have := statusOf_mark_unforced hmk m
        rw [this, if_neg hmn]
        exact hAll m (List.mem_cons_of_mem _ hm)
      rw [ih _ conn (cmds ++ [n]) hAll' hnod'.2]
      have hcomp : ∀ st : Stage,
          submitUpd env L (if st.name = n then { st with status := Status.Submitted } else st) =
            submitUpd env (n :: L) st := by
        intro st
        by_cases hst : st.name = n
        · rw [if_pos hst]
          unfold submitUpd
          simp only
          rw [if_neg (by simp [hst, hnod'.1]), if_pos (by simp [hst, hok])]
        · rw [if_neg hst]
          unfold submitUpd
          simp [List.mem_cons, hst]
      have hmaps : (c.graph.stages.map (fun t =>
          if t.name = n then { t with status := Status.Submitted } else t)).map
            (submitUpd env L) = c.graph.stages.map (submitUpd env (n :: L)) := by
        rw [List.map_map]
        exact List.map_congr_left (fun st _ => hcomp st)
      rw [hmaps]
      simp [List.filter_cons, hok, List.append_assoc]
    · have hexec : Connection.execute conn n (env.duration n) env.deadline =
          (Except.error RemoteError.CommandTimeoutError, conn) := by
        unfold Connection.execute
        rw [if_pos (by omega)]
      have hsub : submitStage env (c, conn, cmds) n = (c, conn, cmds) := by
        simp only [submitStage, hexec]
      rw [hsub]
      rw [ih c conn cmds (fun m hm => hAll m (List.mem_cons_of_mem _ hm)) hnod'.2]
      have hcomp : ∀ st : Stage, submitUpd env L st = submitUpd env (n :: L) st := by
        intro st
        unfold submitUpd
        by_cases hst : st.name = n
        · rw [if_neg (by simp [hst, hnod'.1]), if_neg (by simp [hst, hok])]
        · simp [List.mem_cons, hst]
      rw [List.map_congr_left (fun st _ => hcomp st)]
      simp [List.filter_cons, hok]

theorem statusOf_submitUpd {env : RemoteEnv} {g : PipelineGraph} {L : List String}
    (m : String) :
    (⟨g.stages.map (submitUpd env L)⟩ : PipelineGraph).statusOf m =
      (g.stage? m).map (fun st =>
        if st.name ∈ L ∧ env.duration st.name ≤ env.deadline then Status.Submitted
        else st.status) := by
  unfold PipelineGraph.statusOf PipelineGraph.stage?
  rw [findStage_map_of_name (fun st => by unfold submitUpd; split <;> rfl)]
  cases hfs : findStage g.stages m with
  | none => rfl
  | some t =>
    simp only [Option.map_some']
    unfold submitUpd
    split <;> rfl

theorem names_submitUpd {env : RemoteEnv} {g : PipelineGraph} {L : List String} :
    (⟨g.stages.map (submitUpd env L)⟩ : PipelineGraph).names = g.names :=
  names_map_of_name (fun st => by unfold submitUpd; split <;> rfl)

theorem run_no_overwrite_eq (env : RemoteEnv) (c : Calculation) (conn : Connection)
    (hg : c.graph.names.Nodup) :
    Calculation.run env c conn false =
      (⟨⟨c.graph.stages.map (submitUpd env c.graph.ready_stages)⟩, c.retrievedFiles⟩, conn,
        c.graph.ready_stages.filter (fun n => decide (env.duration n ≤ env.deadline))) := by
  unfold Calculation.run
  rw [if_neg (by simp)]
  rw [submit_foldl_eq env _ c conn [] (fun m hm => ready_stages_pending hg hm)
    (ready_stages_nodup hg)]
  rw [List.nil_append]

theorem ready_stages_after_submit {env : RemoteEnv} {g : PipelineGraph}
    (hno : ∀ n, env.duration n ≤ env.deadline) :
    (⟨g.stages.map (submitUpd env g.ready_stages)⟩ : PipelineGraph).ready_stages = [] := by
  rw [List.eq_nil_iff_forall_not_mem]
  intro n hn
  obtain ⟨st', hmem', hname', hp', hd'⟩ := ready_stages_mem.mp hn
  rw [List.mem_map] at hmem'
  obtain ⟨st, hst, rfl⟩ := hmem'
  have hupd : ¬ (st.name ∈ g.ready_stages ∧ env.duration st.name ≤ env.deadline) := by
    intro hcond
    have : (submitUpd env g.ready_stages st).status = Status.Submitted := by
      unfold submitUpd
      rw [if_pos hcond]
    rw [hp'] at this
    cases this
  have hse : submitUpd env g.ready_stages st = st := by
    unfold submitUpd
    rw [if_neg hupd]
  have hnf : st.name ∉ g.ready_stages := fun hmem => hupd ⟨hmem, hno st.name⟩
  rw [hse] at hp' hd' hname'
  apply hnf
  rw [ready_stages_mem]
  refine ⟨st, hst, rfl, hp', ?_⟩
  intro d hd
  have hdd := hd' d hd
  rw [statusOf_submitUpd d] at hdd
  cases hfd : g.stage? d with
  | none =>
    rw [hfd] at hdd
    cases hdd
  | some t =>
    rw [hfd, Option.map_some'] at hdd
    unfold PipelineGraph.statusOf
    rw [hfd, Option.map_some']
    by_cases hc : t.name ∈ g.ready_stages ∧ env.duration t.name ≤ env.deadline
    · rw [if_pos hc] at hdd
      cases hdd
    · rw [if_neg hc] at hdd
      rw [hdd]

/-- C3: Calculation.run is idempotent without overwrite: running twice in
succession with no intervening status change issues the remote command for
each ready stage at most once (the second run issues none at all), and run is
a no-op for any stage already Submitted or Running — its command is not issued
and its status is unchanged. -/
theorem C3_run_idempotent (env : RemoteEnv) (c : Calculation) (conn : Connection)
    (hg : c.graph.names.Nodup) (hno : ∀ n, env.duration n ≤ env.deadline) :
    (Calculation.run env (Calculation.run env c conn false).1
        (Calculation.run env c conn false).2.1 false).2.2 = []
    ∧ (∀ m, ((Calculation.run env c conn false).2.2 ++
        (Calculation.run env (Calculation.run env c conn false).1
          (Calculation.run env c conn false).2.1 false).2.2).count m ≤ 1)
    ∧ (∀ st ∈ c.graph.stages,
        st.status = Status.Submitted ∨ st.status = Status.Running →
          st.name ∉ (Calculation.run env c conn false).2.2 ∧
            (Calculation.run env c conn false).1.graph.statusOf st.name = some st.status) := by
  have h1 := run_no_overwrite_eq env c conn hg
  have hg1 : (Calculation.run env c conn false).1.graph.names.Nodup := by
    rw [h1]
    exact names_submitUpd.symm ▸ hg
  have h2 := run_no_overwrite_eq env (Calculation.run env c conn false).1
    (Calculation.run env c conn false).2.1 hg1
  have hready1 : (Calculation.run env c conn false).1.graph.ready_stages = [] := by
    rw [h1]
    exact ready_stages_after_submit hno
  have hcmds2 : (Calculation.run env (Calculation.run env c conn false).1
      (Calculation.run env c conn false).2.1 false).2.2 = [] := by
    rw [h2, hready1]
    rfl
  have hcmds1nodup : (Calculation.run env c conn false).2.2.Nodup := by
    rw [h1]
    exact List.Nodup.sublist (List.filter_sublist _) (ready_stages_nodup hg)
  refine ⟨hcmds2, ?_, ?_⟩
  · intro m
    rw [hcmds2, List.append_nil]
    exact List.nodup_iff_count_le_one.mp hcmds1nodup m
  · intro st hst hsr
    have hpend : st.name ∉ c.graph.ready_stages := by
      intro hmem
      have := ready_stages_pending hg hmem
      unfold PipelineGraph.statusOf at this
      rw [stage?_of_mem_nodup hg hst, Option.map_some'] at this
      injection this with this
      rcases hsr with h | h <;> rw [h] at this <;> cases this
    constructor
    · rw [h1]
      intro hmem
      exact hpend (List.mem_of_mem_filter hmem)
    · rw [h1]
      have hsu := @statusOf_submitUpd env c.graph c.graph.ready_stages st.name
      rw [hsu, stage?_of_mem_nodup hg hst, Option.map_some',
        if_neg (fun hc => hpend hc.1)]

/-- Concrete instantiation of C3: on a fresh one-stage graph the second run
issues no commands. -/
theorem C3_run_idempotent_witness :
    (Calculation.run ⟨fun _ => 0, 0⟩
        (Calculation.run ⟨fun _ => 0, 0⟩ ⟨⟨[⟨"A", [], Status.Pending⟩]⟩, []⟩ ⟨true⟩ false).1
        (Calculation.run ⟨fun _ => 0, 0⟩ ⟨⟨[⟨"A", [], Status.Pending⟩]⟩, []⟩ ⟨true⟩ false).2.1
        false).2.2 = [] :=
  (C3_run_idempotent ⟨fun _ => 0, 0⟩ ⟨⟨[⟨"A", [], Status.Pending⟩]⟩, []⟩ ⟨true⟩
    (by decide) (fun _ => Nat.le_refl 0)).1

/-- C10: run with overwrite is safe as the very first run of a fresh
Calculation: when no stage is Done, Submitted or Running (every stage is
Pending or Failed), the forced reset is a no-op and the overwrite run
coincides with the plain run — it submits exactly the same ready stages and
does not fail. -/
theorem C10_run_overwrite_fresh (env : RemoteEnv) (c : Calculation) (conn : Connection)
    (h : ∀ st ∈ c.graph.stages, st.status = Status.Pending ∨ st.status = Status.Failed) :
    c.resetDone = c ∧
      Calculation.run env c conn true = Calculation.run env c conn false := by
  have hreset : c.resetDone = c := by
    unfold Calculation.resetDone
    have hfilt : c.graph.stages.filter (fun st => decide (st.status = Status.Done)) = [] := by
      rw [List.filter_eq_nil_iff]
      intro st hst
      rcases h st hst with h1 | h1 <;> simp [h1]
    rw [hfilt]
    rfl
  refine ⟨hreset, ?_⟩
  simp [Calculation.run, hreset]

/-- Concrete instantiation of C10: on a fresh one-stage calculation, run with
overwrite equals run without it. -/
theorem C10_run_overwrite_fresh_witness :
    Calculation.run ⟨fun _ => 0, 0⟩ ⟨⟨[⟨"A", [], Status.Pending⟩]⟩, []⟩ ⟨true⟩ true =
      Calculation.run ⟨fun _ => 0, 0⟩ ⟨⟨[⟨"A", [], Status.Pending⟩]⟩, []⟩ ⟨true⟩ false :=
  (C10_run_overwrite_fresh ⟨fun _ => 0, 0⟩ ⟨⟨[⟨"A", [], Status.Pending⟩]⟩, []⟩ ⟨true⟩
    (by decide)).2

/-- C7: a remote call that exceeds its caller-supplied deadline fails with
CommandTimeoutError, leaves the connection unchanged and reusable for
subsequent calls, and a ready stage whose submission timed out is left with
status Pending — it is never marked Submitted. -/
theorem C7_timeout_consistency (env : RemoteEnv) :
    (∀ (conn : Connection) (cmd : String) (dur : Nat), env.deadline < dur →
        Connection.execute conn cmd dur env.deadline =
          (Except.error RemoteError.CommandTimeoutError, conn))
    ∧ (∀ (conn : Connection) (cmd cmd' : String) (dur dur' : Nat),
        dur' ≤ env.deadline →
          Connection.execute (Connection.execute conn cmd dur env.deadline).2 cmd' dur'
              env.deadline =
            (Except.ok ⟨0, cmd', ""⟩, (Connection.execute conn cmd dur env.deadline).2))
    ∧ (∀ (c : Calculation) (conn : Connection) (n : String), c.graph.names.Nodup →
        n ∈ c.graph.ready_stages → env.deadline < env.duration n →
          (Calculation.run env c conn false).1.graph.statusOf n = some Status.Pending) := by
  have hconn : ∀ (conn : Connection) (cmd : String) (dur : Nat),
      (Connection.execute conn cmd dur env.deadline).2 = conn := by
    intro conn cmd dur
    unfold Connection.execute
    split <;> rfl
  refine ⟨?_, ?_, ?_⟩
  · intro conn cmd dur hd
    unfold Connection.execute
    rw [if_pos hd]
  · intro conn cmd cmd' dur dur' hd
    rw [hconn]
    unfold Connection.execute
    rw [if_neg (by omega)]
  · intro c conn n hg hn hto
    rw [run_no_overwrite_eq env c conn hg]
    have hp := ready_stages_pending hg hn
    unfold PipelineGraph.statusOf at hp
    cases hst : c.graph.stage? n with
    | none =>
      rw [hst] at hp
      cases hp
    | some st =>
      rw [hst, Option.map_some'] at hp
      injection hp with hp
      have hname : st.name = n := findStage_name hst
      have hsu := @statusOf_submitUpd env c.graph c.graph.ready_stages n
      rw [hsu, hst, Option.map_some',
        if_neg (fun hc => absurd hc.2 (by rw [hname]; omega)), hp]

/-- Concrete instantiation of C7: a command that takes 5 units against a
deadline of 3 fails with CommandTimeoutError and leaves the connection as it
was. -/
theorem C7_timeout_consistency_witness :
    Connection.execute ⟨true⟩ "x" 5 3 =
      (Except.error RemoteError.CommandTimeoutError, ⟨true⟩) :=
  (C7_timeout_consistency ⟨fun _ => 5, 3⟩).1 ⟨true⟩ "x" 5 (by decide)

/-- Modelled from the spec: `transfer(remote_path_set, local_dir)` returns a
per-file success/failure report — each file's outcome individually, never
failing the whole batch atomically; `fails` abstracts which individual file
transfers fail.  Result: (successfully transferred files, failed files). -/
def Connection.transfer (fails : String → Bool) (files : List String) :
    List String × List String :=
  (files.filter (fun f => !(fails f)), files.filter fails)

/-- The names of the stages of the calculation whose status is Done. -/
def Calculation.doneStages (c : Calculation) : List String :=
  (c.graph.stages.filter (fun st => decide (st.status = Status.Done))).map
    (fun st => st.name)

/-- The artifact files of currently-Done stages that have not yet been
retrieved; `art` maps a stage name to its artifact files. -/
def Calculation.pendingArtifacts (art : String → List String) (c : Calculation) :
    List String :=
  (c.doneStages.flatMap art).filter (fun f => decide (f ∉ c.retrievedFiles))

/-- The names of the stages that are not yet Done — what a sync reports as
still outstanding. -/
def Calculation.outstanding (c : Calculation) : List String :=
  (c.graph.stages.filter (fun st => decide (¬ st.status = Status.Done))).map
    (fun st => st.name)

/-- Modelled from the spec: `sync()` — for every Done stage whose artifacts
have not yet been retrieved, transfer them via the Connection into the local
working directory; record the successfully transferred files; return the
per-file report together with the outstanding (non-Done) stages.  It acts
only on what is currently Done, so it never waits for remote completion. -/
def Calculation.sync (art : String → List String) (fails : String → Bool)
    (c : Calculation) : Calculation × (List String × List String) × List String :=
  let rep := Connection.transfer fails (c.pendingArtifacts art)
  (⟨c.graph, c.retrievedFiles ++ rep.1⟩, rep, c.outstanding)

/-- C4: sync is incremental and safe before completion: with zero Done stages
it returns an empty artifact report and leaves the calculation unchanged; it
never touches the pipeline graph (it is not a blocking wait); it attempts only
artifacts of Done stages that were never retrieved before (no duplicate
transfer) and keeps everything already retrieved; and it reports exactly the
stages that are not yet Done as outstanding. -/
theorem C4_sync_incremental (art : String → List String) (fails : String → Bool)
    (c : Calculation) :
    (c.doneStages = [] → Calculation.sync art fails c = (c, ([], []), c.outstanding))
    ∧ (Calculation.sync art fails c).1.graph = c.graph
    ∧ (∀ f, f ∈ c.pendingArtifacts art ↔
        (∃ n ∈ c.doneStages, f ∈ art n) ∧ f ∉ c.retrievedFiles)
    ∧ (∀ f ∈ (Calculation.sync art fails c).2.1.1, f ∉ c.retrievedFiles)
    ∧ (∀ f ∈ (Calculation.sync art fails c).2.1.2, f ∉ c.retrievedFiles)
    ∧ (∀ f ∈ c.retrievedFiles, f ∈ (Calculation.sync art fails c).1.retrievedFiles)
    ∧ (Calculation.sync art fails c).2.2 = c.outstanding
    ∧ (∀ m, m ∈ c.outstanding ↔
        ∃ st ∈ c.graph.stages, st.name = m ∧ ¬ st.status = Status.Done) := by
  have hpend : ∀ f, f ∈ c.pendingArtifacts art ↔
      (∃ n ∈ c.doneStages, f ∈ art n) ∧ f ∉ c.retrievedFiles := by
    intro f
    unfold Calculation.pendingArtifacts
    simp [List.mem_filter, List.mem_flatMap]
  refine ⟨?_, rfl, hpend, ?_, ?_, ?_, rfl, ?_⟩
  · intro hdone
    have hp : c.pendingArtifacts art = [] := by
      unfold Calculation.pendingArtifacts
      rw [hdone]
      rfl
    unfold Calculation.sync
    rw [hp]
    simp [Connection.transfer]
  · intro f hf
    unfold Calculation.sync Connection.transfer at hf
    simp only [List.mem_filter] at hf
    exact ((hpend f).mp hf.1).2
  · intro f hf
    unfold Calculation.sync Connection.transfer at hf
    simp only [List.mem_filter] at hf
    exact ((hpend f).mp hf.1).2
  · intro f hf
    unfold Calculation.sync
    exact List.mem_append_left _ hf
  · intro m
    unfold Calculation.outstanding
    simp [List.mem_filter]
    constructor
    · rintro ⟨st, ⟨hmem, hnd⟩, rfl⟩
      exact ⟨st, hmem, rfl, hnd⟩
    · rintro ⟨st, hmem, rfl, hnd⟩
      exact ⟨st, ⟨hmem, hnd⟩, rfl⟩

/-- Concrete instantiation of C4: with no Done stage a sync changes nothing
and reports no artifacts. -/
theorem C4_sync_incremental_witness :
    Calculation.sync (fun n => [n]) (fun _ => false)
        ⟨⟨[⟨"A", [], Status.Pending⟩]⟩, []⟩ =
      (⟨⟨[⟨"A", [], Status.Pending⟩]⟩, []⟩, ([], []), ["A"]) :=
  (C4_sync_incremental (fun n => [n]) (fun _ => false)
    ⟨⟨[⟨"A", [], Status.Pending⟩]⟩, []⟩).1 (by decide)

theorem pendingArtifacts_after_sync (art : String → List String)
    (fails : String → Bool) (c : Calculation) :
    ((Calculation.sync art fails c).1).pendingArtifacts art =
      (Calculation.sync art fails c).2.1.2 := by
  unfold Calculation.sync Connection.transfer Calculation.pendingArtifacts
    Calculation.doneStages
  simp only
  rw [List.filter_filter, List.filter_filter]
  apply List.filter_congr
  intro f hf
  by_cases hr : f ∈ c.retrievedFiles
  · have h1 : (fails f && decide (f ∉ c.retrievedFiles)) = false := by simp [hr]
    rw [h1]
    simp [List.mem_append, hr]
  · by_cases hfail : fails f = true
    · have h1 : (fails f && decide (f ∉ c.retrievedFiles)) = true := by simp [hr, hfail]
      rw [h1]
      simp only [decide_eq_true_eq]
      rw [List.mem_append]
      rintro (hmem | hmem)
      · exact hr hmem
      · rw [List.mem_filter] at hmem
        rw [hfail] at hmem
        simp at hmem
    · simp only [Bool.not_eq_true] at hfail
      have h1 : (fails f && decide (f ∉ c.retrievedFiles)) = false := by simp [hfail]
      rw [h1]
      simp only [decide_eq_false_iff_not, not_not]
      rw [List.mem_append]
      right
      rw [List.mem_filter]
      exact ⟨hf, by simp [hr, hfail]⟩

/-- C5: transfer reports per-file outcomes rather than failing the batch
atomically: every file of the batch lands in the success or failure list
according to its own outcome; for the five-file set where exactly file 3
fails, the report names four successes and the one failure; a partial failure
does not abort the enclosing sync, which still records the successes and
returns the full report; and a subsequent sync re-attempts exactly the files
that previously failed. -/
theorem C5_transfer_per_file (art : String → List String) (fails : String → Bool)
    (files : List String) (c : Calculation) :
    (∀ f, (f ∈ (Connection.transfer fails files).1 ↔ f ∈ files ∧ fails f = false)
        ∧ (f ∈ (Connection.transfer fails files).2 ↔ f ∈ files ∧ fails f = true))
    ∧ Connection.transfer (fun f => decide (f = "file3"))
        ["file1", "file2", "file3", "file4", "file5"] =
        (["file1", "file2", "file4", "file5"], ["file3"])
    ∧ (Calculation.sync art fails c).1.retrievedFiles =
        c.retrievedFiles ++ (Connection.transfer fails (c.pendingArtifacts art)).1
    ∧ (Calculation.sync art fails c).2.1 =
        Connection.transfer fails (c.pendingArtifacts art)
    ∧ ((Calculation.sync art fails c).1).pendingArtifacts art =
        (Calculation.sync art fails c).2.1.2 := by
  refine ⟨?_, by decide, rfl, rfl, pendingArtifacts_after_sync art fails c⟩
  intro f
  unfold Connection.transfer
  constructor
  · rw [List.mem_filter]
    constructor
    · rintro ⟨h1, h2⟩
      simp at h2
      exact ⟨h1, h2⟩
    · rintro ⟨h1, h2⟩
      exact ⟨h1, by simp [h2]⟩
  · rw [List.mem_filter]

/-- Concrete instantiation of C5: the five-file batch where exactly file 3
fails reports four successes and the one named failure. -/
theorem C5_transfer_per_file_witness :
    Connection.transfer (fun f => decide (f = "file3"))
        ["file1", "file2", "file3", "file4", "file5"] =
      (["file1", "file2", "file4", "file5"], ["file3"]) :=
  (C5_transfer_per_file (fun n => [n]) (fun _ => false) []
    ⟨⟨[]⟩, []⟩).2.1

/-- Modelled from the spec: an InputSpecification is {name (unique identity),
parameter mapping (key → value), derivation lineage pointer or none} (the
shore `Input` class is not in the repository; values are kept abstract). -/
structure Input (α : Type) where
  name : String
  params : List (String × α)
  lineage : Option String
deriving DecidableEq

/-- The value a parameter mapping binds to a key (first binding wins). -/
def getParam {α : Type} : List (String × α) → String → Option α
  | [], _ => none
  | p :: m, k => if p.1 = k then some p.2 else getParam m k

/-- Bind a key in a parameter mapping: replace its binding when present,
append the binding otherwise. -/
def setParam {α : Type} (m : List (String × α)) (k : String) (v : α) :
    List (String × α) :=
  if m.any (fun p => decide (p.1 = k)) then
    m.map (fun p => if p.1 = k then (k, v) else p)
  else m ++ [(k, v)]

/-- Apply an override list to a parameter mapping, left to right. -/
def applyOverrides {α : Type} (m : List (String × α)) (os : List (String × α)) :
    List (String × α) :=
  os.foldl (fun acc p => setParam acc p.1 p.2) m

/-- The last value an override list binds to a key, if any. -/
def lastBinding {α : Type} (os : List (String × α)) (k : String) : Option α :=
  getParam os.reverse k

/-- Modelled from the spec: `fork(overrides)` copies the parent's parameter
mapping, applies the override mapping (failing with UnknownParameterError when
an override key is not in the recognized vocabulary), assigns the fresh
required name, and records the parent as derivation lineage.  The parent is
not mutated. -/
def Input.fork {α : Type} (vocab : List String) (parent : Input α) (newName : String)
    (os : List (String × α)) : Option (Input α) :=
  if ∀ p ∈ os, p.1 ∈ vocab then
    some ⟨newName, applyOverrides parent.params os, some parent.name⟩
  else none

/-- Look an input up by identity in a store of inputs. -/
def lookupInput {α : Type} : List (String × Input α) → String → Option (Input α)
  | [], _ => none
  | p :: e, n => if p.1 = n then some p.2 else lookupInput e n

/-- A fork request: parent identity, fresh child identity, overrides. -/
structure ForkReq (α : Type) where
  parent : String
  child : String
  os : List (String × α)

/-- Modelled from the spec: a fork call against the store of live inputs: the
parent is looked up, the child's name must be fresh, and the forked child is
appended; no stored input is modified. -/
def forkOp {α : Type} (vocab : List String) (e : List (String × Input α))
    (r : ForkReq α) : Option (List (String × Input α)) :=
  (lookupInput e r.parent).bind (fun parent =>
    if (lookupInput e r.child).isSome then none
    else (parent.fork vocab r.child r.os).map (fun child => e ++ [(r.child, child)]))

/-- Apply one fork request; a rejected fork leaves the store unchanged. -/
def applyForkOp {α : Type} (vocab : List String) (e : List (String × Input α))
    (r : ForkReq α) : List (String × Input α) :=
  (forkOp vocab e r).getD e

/-- Apply a sequence of fork requests in order. -/
def runForks {α : Type} (vocab : List String) (e : List (String × Input α))
    (rs : List (ForkReq α)) : List (String × Input α) :=
  rs.foldl (applyForkOp vocab) e

theorem lookupInput_append_left {α : Type} {e ext : List (String × Input α)}
    {n : String} {x : Input α} (h : lookupInput e n = some x) :
    lookupInput (e ++ ext) n = some x := by
  induction e with
  | nil => simp [lookupInput] at h
  | cons p e ih =>
    rw [lookupInput] at h
    rw [List.cons_append, lookupInput]
    by_cases hp : p.1 = n
    · rw [if_pos hp] at h
      rw [if_pos hp]
      exact h
    · rw [if_neg hp] at h
      rw [if_neg hp]
      exact ih h

theorem lookupInput_append_self {α : Type} {e : List (String × Input α)}
    {n : String} (h : lookupInput e n = none) (x : Input α) :
    lookupInput (e ++ [(n, x)]) n = some x := by
  induction e with
  | nil => simp [lookupInput]
  | cons p e ih =>
    rw [lookupInput] at h
    rw [List.cons_append, lookupInput]
    by_cases hp : p.1 = n
    · rw [if_pos hp] at h
      cases h
    · rw [if_neg hp] at h
      rw [if_neg hp]
      exact ih h

theorem forkOp_eq {α : Type} {vocab : List String} {e e' : List (String × Input α)}
    {r : ForkReq α} (h : forkOp vocab e r = some e') :
    lookupInput e r.child = none ∧
      ∃ child : Input α, e' = e ++ [(r.child, child)] := by
  unfold forkOp at h
  cases hp : lookupInput e r.parent with
  | none =>
    rw [hp] at h
    cases h
  | some parent =>
    rw [hp, Option.some_bind] at h
    by_cases hc : (lookupInput e r.child).isSome
    · rw [if_pos hc] at h
      cases h
    · rw [if_neg hc] at h
      cases hf : parent.fork vocab r.child r.os with
      | none =>
        rw [hf] at h
        cases h
      | some child =>
        rw [hf, Option.map_some'] at h
        cases h
        refine ⟨?_, child, rfl⟩
        cases hlc : lookupInput e r.child with
        | none => rfl
        | some x =>
          rw [hlc] at hc
          simp at hc

theorem lookup_applyForkOp {α : Type} (vocab : List String)
    (e : List (String × Input α)) (r : ForkReq α) {n : String} {x : Input α}
    (h : lookupInput e n = some x) :
    lookupInput (applyForkOp vocab e r) n = some x := by
  unfold applyForkOp
  cases hf : forkOp vocab e r with
  | none =>
    rw [Option.getD_none]
    exact h
  | some e' =>
    rw [Option.getD_some]
    obtain ⟨-, child, rfl⟩ := forkOp_eq hf
    exact lookupInput_append_left h

/-- C6: fork is pure with respect to its parent: after any sequence of fork
calls the parent's stored input — its parameter mapping in particular — is
exactly what it was before, and two successive successful forks always carry
distinct child identities, even when produced with identical override sets. -/
theorem C6_fork_pure {α : Type} (vocab : List String) :
    (∀ (e : List (String × Input α)) (rs : List (ForkReq α)) (n : String) (x : Input α),
        lookupInput e n = some x → lookupInput (runForks vocab e rs) n = some x)
    ∧ (∀ (e e1 e2 : List (String × Input α)) (r1 r2 : ForkReq α),
        forkOp vocab e r1 = some e1 → forkOp vocab e1 r2 = some e2 →
          r1.child ≠ r2.child) := by
  constructor
  · intro e rs
    induction rs generalizing e with
    | nil =>
      intro n x h
      exact h
    | cons r rs ih =>
      intro n x h
      rw [runForks, List.foldl_cons]
      exact ih _ n x (lookup_applyForkOp vocab e r h)
  · intro e e1 e2 r1 r2 h1 h2 heq
    obtain ⟨hc1, child1, rfl⟩ := forkOp_eq h1
    obtain ⟨hc2, -⟩ := forkOp_eq h2
    rw [← heq, lookupInput_append_self hc1 child1] at hc2
    cases hc2

/-- Concrete instantiation of C6: forking basic twice (identical overrides)
leaves basic's stored input unchanged. -/
theorem C6_fork_pure_witness :
    lookupInput
        (runForks ["bse_core_strength"]
          [("basic", ⟨"basic", [("bse_core_strength", (0 : Int))], none⟩)]
          [⟨"basic", "ip", [("bse_core_strength", 0)]⟩,
            ⟨"basic", "ip2", [("bse_core_strength", 0)]⟩])
        "basic" =
      some ⟨"basic", [("bse_core_strength", (0 : Int))], none⟩ :=
  (C6_fork_pure ["bse_core_strength"]).1
    [("basic", ⟨"basic", [("bse_core_strength", (0 : Int))], none⟩)]
    [⟨"basic", "ip", [("bse_core_strength", 0)]⟩,
      ⟨"basic", "ip2", [("bse_core_strength", 0)]⟩]
    "basic" ⟨"basic", [("bse_core_strength", (0 : Int))], none⟩ (by decide)

theorem getParam_append_left {α : Type} {m₁ m₂ : List (String × α)} {k : String}
    {v : α} (h : getParam m₁ k = some v) : getParam (m₁ ++ m₂) k = some v := by
  induction m₁ with
  | nil => simp [getParam] at h
  | cons p m ih =>
    rw [getParam] at h
    rw [List.cons_append, getParam]
    by_cases hp : p.1 = k
    · rw [if_pos hp] at h
      rw [if_pos hp]
      exact h
    · rw [if_neg hp] at h
      rw [if_neg hp]
      exact ih h

theorem getParam_append_right {α : Type} {m₁ m₂ : List (String × α)} {k : String}
    (h : getParam m₁ k = none) : getParam (m₁ ++ m₂) k = getParam m₂ k := by
  induction m₁ with
  | nil => rfl
  | cons p m ih =>
    rw [getParam] at h
    rw [List.cons_append, getParam]
    by_cases hp : p.1 = k
    · rw [if_pos hp] at h
      cases h
    · rw [if_neg hp] at h
      rw [if_neg hp]
      exact ih h

theorem getParam_eq_none {α : Type} {m : List (String × α)} {k : String} :
    getParam m k = none ↔ ∀ p ∈ m, p.1 ≠ k := by
  induction m with
  | nil => simp [getParam]
  | cons p m ih =>
    rw [getParam]
    by_cases hp : p.1 = k
    · rw [if_pos hp]
      simp [hp]
    · rw [if_neg hp]
      simp [hp, ih]

theorem getParam_setParam_self {α : Type} (m : List (String × α)) (k : String)
    (v : α) : getParam (setParam m k v) k = some v := by
  unfold setParam
  by_cases hany : m.any (fun p => decide (p.1 = k)) = true
  · rw [if_pos hany]
    induction m with
    | nil => simp at hany
    | cons p m ih =>
      rw [List.map_cons, getParam]
      by_cases hp : p.1 = k
      · rw [if_pos hp]
        rw [if_pos rfl]
      · rw [if_neg hp]
        rw [if_neg hp]
        apply ih
        rw [List.any_cons] at hany
        simp only [hp, decide_False, Bool.false_or] at hany
        exact hany
  · rw [if_neg hany]
    have hnone : getParam m k = none := by
      rw [getParam_eq_none]
      intro p hp
      rw [List.any_eq_true] at hany
      exact fun hpk => hany ⟨p, hp, by simp [hpk]⟩
    rw [getParam_append_right hnone, getParam, if_pos rfl]

theorem getParam_setParam_other {α : Type} (m : List (String × α)) {k k' : String}
    (v : α) (hkk : k' ≠ k) : getParam (setParam m k v) k' = getParam m k' := by
  unfold setParam
  by_cases hany : m.any (fun p => decide (p.1 = k)) = true
  · rw [if_pos hany]
    clear hany
    induction m with
    | nil => rfl
    | cons p m ih =>
      rw [List.map_cons, getParam, getParam]
      by_cases hp : p.1 = k
      · rw [if_pos hp]
        have h1 : ¬ (k, v).1 = k' := fun h => hkk (Eq.symm h)
        have h2 : ¬ p.1 = k' := fun h => hkk ((hp ▸ h : k = k')).symm
        rw [if_neg h1, if_neg h2]
        exact ih
      · rw [if_neg hp]
        by_cases hp' : p.1 = k'
        · rw [if_pos hp', if_pos hp']
        · rw [if_neg hp', if_neg hp']
          exact ih
  · rw [if_neg hany]
    cases hg : getParam m k' with
    | none =>
      rw [getParam_append_right hg, getParam]
      rw [if_neg (fun h => hkk ((h : k = k')).symm)]
      rfl
    | some w => exact getParam_append_left hg

theorem getParam_applyOverrides_not_mem {α : Type} {os : List (String × α)}
    {k : String} (hk : ∀ p ∈ os, p.1 ≠ k) :
    ∀ m : List (String × α), getParam (applyOverrides m os) k = getParam m k := by
  induction os with
  | nil =>
    intro m
    rfl
  | cons p os ih =>
    intro m
    rw [applyOverrides, List.foldl_cons]
    have h1 := ih (fun q hq => hk q (List.mem_cons_of_mem _ hq)) (setParam m p.1 p.2)
    rw [applyOverrides] at h1
    rw [h1]
    exact getParam_setParam_other m p.2
      (fun h => hk p (List.mem_cons_self _ _) h.symm)

theorem getParam_applyOverrides_last {α : Type} {os : List (String × α)}
    {k : String} {v : α} (h : lastBinding os k = some v) :
    ∀ m : List (String × α), getParam (applyOverrides m os) k = some v := by
  induction os with
  | nil => simp [lastBinding, getParam] at h
  | cons p os ih =>
    intro m
    rw [applyOverrides, List.foldl_cons]
    unfold lastBinding at h
    rw [List.reverse_cons] at h
    cases hrev : getParam os.reverse k with
    | some w =>
      have hw : lastBinding os k = some w := hrev
      rw [getParam_append_left hrev] at h
      injection h with h
      subst h
      have h2 := ih hw (setParam m p.1 p.2)
      rw [applyOverrides] at h2
      exact h2
    | none =>
      rw [getParam_append_right hrev, getParam] at h
      by_cases hp : p.1 = k
      · rw [if_pos hp] at h
        injection h with h
        subst h
        have hnm : ∀ q ∈ os, q.1 ≠ k := by
          intro q hq
          exact (getParam_eq_none.mp hrev) q (List.mem_reverse.mpr hq)
        have h2 := getParam_applyOverrides_not_mem hnm (setParam m p.1 p.2)
        rw [applyOverrides] at h2
        rw [h2, hp]
        exact getParam_setParam_self m k p.2
      · rw [if_neg hp] at h
        cases h

theorem fork_eq {α : Type} {vocab : List String} {parent : Input α} {n : String}
    {os : List (String × α)} {c : Input α}
    (h : Input.fork vocab parent n os = some c) :
    c = ⟨n, applyOverrides parent.params os, some parent.name⟩ := by
  unfold Input.fork at h
  by_cases hv : ∀ p ∈ os, p.1 ∈ vocab
  · rw [if_pos hv] at h
    cases h
    rfl
  · rw [if_neg hv] at h
    cases h

/-- C9: fork composes along the lineage chain with later overrides taking
precedence: forking P with o1 and then the child with o2 yields a grandchild
whose parameter mapping is P's mapping overridden first by o1 and then by o2;
a key bound by both override lists holds o2's value in the grandchild while
the intermediate child keeps o1's value. -/
theorem C9_fork_composes {α : Type} (vocab : List String) (P : Input α)
    (n1 n2 : String) (o1 o2 : List (String × α)) (c1 c2 : Input α)
    (h1 : Input.fork vocab P n1 o1 = some c1)
    (h2 : Input.fork vocab c1 n2 o2 = some c2) :
    c2.params = applyOverrides (applyOverrides P.params o1) o2
    ∧ (∀ (k : String) (v1 v2 : α), lastBinding o1 k = some v1 →
        lastBinding o2 k = some v2 →
          getParam c2.params k = some v2 ∧ getParam c1.params k = some v1) := by
  have he1 := fork_eq h1
  subst he1
  have he2 := fork_eq h2
  subst he2
  refine ⟨rfl, ?_⟩
  intro k v1 v2 hb1 hb2
  exact ⟨getParam_applyOverrides_last hb2 _, getParam_applyOverrides_last hb1 _⟩

/-- Concrete instantiation of C9: basic forked with bse_core_strength 0 and
then with bse_core_strength 1 yields 1 in the grandchild while the child
keeps 0. -/
theorem C9_fork_composes_witness :
    getParam (applyOverrides (applyOverrides
        [("bse_core_strength", (0 : Int))] [("bse_core_strength", 0)])
        [("bse_core_strength", 1)]) "bse_core_strength" = some 1
    ∧ getParam (applyOverrides
        [("bse_core_strength", (0 : Int))] [("bse_core_strength", 0)])
        "bse_core_strength" = some 0 :=
  (C9_fork_composes ["bse_core_strength"]
      ⟨"basic", [("bse_core_strength", (0 : Int))], none⟩ "ip" "bse"
      [("bse_core_strength", 0)] [("bse_core_strength", 1)]
      ⟨"ip", applyOverrides [("bse_core_strength", (0 : Int))]
        [("bse_core_strength", 0)], some "basic"⟩
      ⟨"bse", applyOverrides (applyOverrides [("bse_core_strength", (0 : Int))]
        [("bse_core_strength", 0)]) [("bse_core_strength", 1)], some "ip"⟩
      (by rfl) (by rfl)).2
    "bse_core_strength" 0 1 (by rfl) (by rfl)

/-- Modelled from the spec: the fingerprint of an input for one stage — the
values the input assigns to the parameter subset relevant to that stage.
Stage reuse across forked inputs is keyed by this parameter-subset
fingerprint, not by whole-input identity. -/
def fingerprint {α : Type} (relevant : String → List String) (inp : Input α)
    (stage : String) : List (Option α) :=
  (relevant stage).map (fun k => getParam inp.params k)

/-- Modelled from the spec: creating a Calculation over an input reuses a
stage's Done status when a completed run with the same stage fingerprint is
recorded; every other stage starts Pending. -/
def newCalculation {α : Type} [DecidableEq α] (relevant : String → List String)
    (completed : List (String × List (Option α))) (inp : Input α)
    (stageDefs : List (String × List String)) : Calculation :=
  ⟨⟨stageDefs.map (fun sd =>
      ⟨sd.1, sd.2,
        if (sd.1, fingerprint relevant inp sd.1) ∈ completed then Status.Done
        else Status.Pending⟩)⟩, []⟩

theorem submit_foldl_cmds_subset (env : RemoteEnv) :
    ∀ (L : List String) (acc : Calculation × Connection × List String) (m : String),
      m ∈ (L.foldl (submitStage env) acc).2.2 → m ∈ acc.2.2 ∨ m ∈ L := by
  intro L
  induction L with
  | nil =>
    intro acc m hm
    exact Or.inl hm
  | cons n L ih =>
    intro acc m hm
    rw [List.foldl_cons] at hm
    rcases ih (submitStage env acc n) m hm with h | h
    · unfold submitStage at h
      split at h
      · rw [List.mem_append] at h
        rcases h with h | h
        · exact Or.inl h
        · rw [List.mem_singleton] at h
          exact Or.inr (h ▸ List.mem_cons_self _ _)
      · exact Or.inl h
    · exact Or.inr (List.mem_cons_of_mem _ h)

theorem run_false_foldl (env : RemoteEnv) (c : Calculation) (conn : Connection) :
    Calculation.run env c conn false =
      c.graph.ready_stages.foldl (submitStage env) (c, conn, []) := by
  unfold Calculation.run
  rw [if_neg (by simp)]

/-- C8: stage reuse across forked inputs is decided by fingerprint equality of
the stage-relevant parameter subset: if a completed run of a stage is recorded
under X's fingerprint and Y = X.fork(overrides) leaves every parameter
relevant to that stage unchanged, then Y's fingerprint for the stage equals
X's, a Calculation over Y starts that stage as Done, and run over that
Calculation does not submit the stage's command. -/
theorem C8_fingerprint_reuse {α : Type} [DecidableEq α] (vocab : List String)
    (relevant : String → List String) (completed : List (String × List (Option α)))
    (X Y : Input α) (nm stage : String) (os : List (String × α))
    (env : RemoteEnv) (conn : Connection) (stageDefs : List (String × List String))
    (_hfork : Input.fork vocab X nm os = some Y)
    (hrel : ∀ k ∈ relevant stage, getParam Y.params k = getParam X.params k)
    (hdone : (stage, fingerprint relevant X stage) ∈ completed) :
    fingerprint relevant Y stage = fingerprint relevant X stage
    ∧ (∀ st ∈ (newCalculation relevant completed Y stageDefs).graph.stages,
        st.name = stage → st.status = Status.Done)
    ∧ stage ∉
        (Calculation.run env (newCalculation relevant completed Y stageDefs) conn
          false).2.2 := by
  have hfp : fingerprint relevant Y stage = fingerprint relevant X stage := by
    unfold fingerprint
    exact List.map_congr_left (fun k hk => hrel k hk)
  have hdoneAll : ∀ st ∈ (newCalculation relevant completed Y stageDefs).graph.stages,
      st.name = stage → st.status = Status.Done := by
    intro st hst hname
    unfold newCalculation at hst
    simp only [List.mem_map] at hst
    obtain ⟨sd, hsd, rfl⟩ := hst
    simp only at hname
    subst hname
    simp only
    rw [if_pos]
    rw [hfp]
    exact hdone
  refine ⟨hfp, hdoneAll, ?_⟩
  intro hmem
  rw [run_false_foldl] at hmem
  rcases submit_foldl_cmds_subset env _ _ stage hmem with h | h
  · simp at h
  · obtain ⟨st, hst, hname, hp, -⟩ := ready_stages_mem.mp h
    have := hdoneAll st hst hname
    rw [hp] at this
    cases this

/-- Concrete instantiation of C8: with prep completed under the shared
fingerprint, the calculation over the forked input does not submit prep. -/
theorem C8_fingerprint_reuse_witness :
    "prep" ∉
      (Calculation.run ⟨fun _ => 0, 0⟩
        (newCalculation (fun _ => ["screen_nbands"])
          [("prep", [getParam [("screen_nbands", (10 : Int)),
            ("bse_core_strength", 0)] "screen_nbands"])]
          ⟨"ip", applyOverrides [("screen_nbands", (10 : Int)),
            ("bse_core_strength", 0)] [("bse_core_strength", 1)], some "basic"⟩
          [("prep", []), ("spectra", ["prep"])])
        ⟨true⟩ false).2.2 :=
  (C8_fingerprint_reuse ["bse_core_strength", "screen_nbands"]
    (fun _ => ["screen_nbands"])
    [("prep", [getParam [("screen_nbands", (10 : Int)),
      ("bse_core_strength", 0)] "screen_nbands"])]
    ⟨"basic", [("screen_nbands", (10 : Int)), ("bse_core_strength", 0)], none⟩
    ⟨"ip", applyOverrides [("screen_nbands", (10 : Int)),
      ("bse_core_strength", 0)] [("bse_core_strength", 1)], some "basic"⟩
    "ip" "prep" [("bse_core_strength", 1)] ⟨fun _ => 0, 0⟩ ⟨true⟩
    [("prep", []), ("spectra", ["prep"])]
    (by rfl) (by decide) (by decide)).2.2

end Shore
